import Mathlib

/-!
Verification of `chempy/kinetics/rates.py`.

The Python source is shallowly embedded below:

* `Scal` models the values handled by `_eval_k`: a Python object with a class
  name, an optional `__call__` implementation (absent means not callable), and
  an optional numeric payload (a plain number).  `eval_k` mirrors `_eval_k`.
* `Reaction`/`RSys` model the read-only interface the source consumes from a
  `ReactionSystem`: `rxns` (ordered reactions, each with its `reac`
  stoichiometry mapping and `param`) and `as_substance_index` (a partial
  map, `none` modelling a `KeyError`).
* `law_of_mass_action_rates` mirrors the generator of the same name; the lazy
  generator is modelled as the list of its yields, each yield an
  `Except Err ℚ` where `Except.error` models a raised exception.
* `RExpr` models the `_RateExpr` tree: each argument is either a scalar leaf
  (`Sum.inl`) or a nested node (`Sum.inr`).  `construct`, `rebuild`,
  `get_params`, `eval_arg` and `evalExpr` mirror `__init__`, `rebuild`,
  `get_params`, `eval_arg` and the four variants' `eval` methods.

Machine arithmetic of the source is `float`/symbolic; the embedding uses exact
rationals `ℚ`, which is faithful to every claim checked here (none concerns
rounding).  Raised Python exceptions are modelled by the `Err` enumeration.
-/

namespace Chempy

/-- The kinds of exceptions the source can raise, plus `nonNumeric` for a
rate parameter that does not resolve to a number (outside the rational
fragment the embedding computes with). -/
inductive Err where
  | arity        -- ValueError "Incorrect number of parameters"
  | length       -- ValueError "Incorrect length of params"
  | index        -- IndexError / KeyError on a lookup
  | emptyReduce  -- TypeError: reduce() of empty sequence with no initial value
  | notImplemented
  | nonNumeric
deriving DecidableEq

/-- A Python value as seen by `_eval_k`: its class name, its optional
`__call__` implementation (`none` = not callable) and its numeric payload
(`none` = not a plain number, e.g. a symbolic object). -/
inductive Scal (State : Type) : Type where
  | mk (className : String) (call : Option (State → Scal State)) (num : Option ℚ)

def Scal.className {State : Type} : Scal State → String
  | .mk c _ _ => c

def Scal.call {State : Type} : Scal State → Option (State → Scal State)
  | .mk _ f _ => f

def Scal.num {State : Type} : Scal State → Option ℚ
  | .mk _ _ n => n

/-- Mirrors `_eval_k(k, state)`: `is_func = callable(k) and not k.__class__.__name__
== 'Symbol'`; return `k(state)` if `is_func` else `k`. -/
def eval_k {State : Type} (k : Scal State) (state : State) : Scal State :=
  match k with
  | .mk cn (some f) n => if cn = "Symbol" then Scal.mk cn (some f) n else f state
  | .mk cn none n => Scal.mk cn none n

/-- A reaction as consumed by the source: reactant stoichiometry `reac`
(substance key to non-negative coefficient) and the rate parameter. -/
structure Reaction (State : Type) where
  reac : List (String × ℕ)
  param : Scal State

/-- The read interface of a `ReactionSystem`: its ordered reactions and
`as_substance_index` (`none` models a `KeyError` for an unknown key). -/
structure RSys (State : Type) where
  rxns : List (Reaction State)
  as_substance_index : String → Option ℕ

/-- The body of the `for substance_key, coeff in rxn.reac.items()` loop of
`law_of_mass_action_rates`, carrying the running `rate`:
`rate *= conc[rsys.as_substance_index(substance_key)]**coeff`. -/
def lma_loop {State : Type} (conc : List ℚ) (rsys : RSys State) :
    List (String × ℕ) → ℚ → Except Err ℚ
  | [], rate => Except.ok rate
  | kc :: rest, rate => do
      let si ← match rsys.as_substance_index kc.1 with
        | some si => Except.ok si
        | none => Except.error Err.index
      let c ← match conc.get? si with
        | some c => Except.ok c
        | none => Except.error Err.index
      lma_loop conc rsys rest (rate * c ^ kc.2)

/-- The inner loop of `law_of_mass_action_rates`:
`rate = 1; for k, v in rxn.reac.items(): rate *= conc[idx(k)]**v`. -/
def mass_action_product {State : Type} (conc : List ℚ) (rsys : RSys State)
    (reac : List (String × ℕ)) : Except Err ℚ :=
  lma_loop conc rsys reac 1

/-- One yield of the generator: the reactant-concentration product times the
resolved rate parameter (`rxn.param` when `params is None`, else
`params[rxn_idx]`). -/
def law_yield {State : Type} (conc : List ℚ) (rsys : RSys State)
    (params : Option (List (Scal State))) (state : State) (rxn_idx : ℕ)
    (rxn : Reaction State) : Except Err ℚ := do
  let rate ← mass_action_product conc rsys rxn.reac
  let k ← match params with
    | none => Except.ok rxn.param
    | some ps => match ps.get? rxn_idx with
      | some p => Except.ok p
      | none => Except.error Err.index
  match (eval_k k state).num with
  | some q => Except.ok (rate * q)
  | none => Except.error Err.nonNumeric

/-- The loop `for rxn_idx, rxn in enumerate(rsys.rxns): yield ...`, unrolled from a
starting index. -/
def law_go {State : Type} (conc : List ℚ) (rsys : RSys State)
    (params : Option (List (Scal State))) (state : State) (rxn_idx : ℕ) :
    List (Reaction State) → List (Except Err ℚ)
  | [] => []
  | rxn :: rest =>
      law_yield conc rsys params state rxn_idx rxn ::
        law_go conc rsys params state (rxn_idx + 1) rest

/-- Mirrors `law_of_mass_action_rates(conc, rsys, params=None, state=None)`, the lazy
generator modelled as the list of its yields. -/
def law_of_mass_action_rates {State : Type} (conc : List ℚ) (rsys : RSys State)
    (params : Option (List (Scal State))) (state : State) :
    List (Except Err ℚ) :=
  law_go conc rsys params state 0 rsys.rxns

/-- The four concrete `_RateExpr` subclasses. -/
inductive Variant where
  | massAction | generalPow | sum | quotient
deriving DecidableEq

/-- The class attribute `nargs` of each subclass (`-1` is the variadic
sentinel, as in the source). -/
def Variant.nargsCls : Variant → Int
  | .massAction => 1
  | .generalPow => 1
  | .sum => -1
  | .quotient => 2

/-- A `_RateExpr` tree node: concrete variant, `args` (each argument a scalar
leaf `Sum.inl` or a nested node `Sum.inr`), `hard_args` (used by `GeneralPow`
as its key-to-power mapping) and the opaque `ref`. -/
inductive RExpr : Type where
  | mk (variant : Variant) (args : List (ℚ ⊕ RExpr)) (hard_args : List (String × ℤ))
      (ref : ℕ)

def RExpr.variant : RExpr → Variant
  | .mk v _ _ _ => v

def RExpr.args : RExpr → List (ℚ ⊕ RExpr)
  | .mk _ a _ _ => a

def RExpr.hard_args : RExpr → List (String × ℤ)
  | .mk _ _ h _ => h

def RExpr.ref : RExpr → ℕ
  | .mk _ _ _ r => r

mutual
/-- Total scalar count of a node, `sum(self._nscalars)`. -/
def nscalarsOf : RExpr → ℕ
  | .mk _ args _ _ => nscalarsList args
/-- Running total of `_get_nscalars` entries over an argument list. -/
def nscalarsList : List (ℚ ⊕ RExpr) → ℕ
  | [] => 0
  | .inl _ :: rest => 1 + nscalarsList rest
  | .inr e :: rest => nscalarsOf e + nscalarsList rest
end

/-- Mirrors `self._nscalars` from `_get_nscalars`: per argument, `1` for a scalar leaf
and the subtree's total scalar count for a nested node. -/
def nscalarsVec (args : List (ℚ ⊕ RExpr)) : List ℕ :=
  args.map fun a => match a with
    | .inl _ => 1
    | .inr e => nscalarsOf e

/-- Entry `i` of `self._accum_nscalars = np.cumsum([0] + self._nscalars)`. -/
def accum_nscalars (args : List (ℚ ⊕ RExpr)) (i : ℕ) : ℕ :=
  ((nscalarsVec args).take i).sum

/-- Mirrors `self._accum_nscalars` as the stored vector of length `nargs + 1`. -/
def accum_list (args : List (ℚ ⊕ RExpr)) : List ℕ :=
  (List.range (args.length + 1)).map (accum_nscalars args)

/-- Mirrors `_sub_params`: `None` stays `None`, otherwise the slice
`params[accum_nscalars[i]:accum_nscalars[i+1]]`. -/
def sub_params (args : List (ℚ ⊕ RExpr)) (i : ℕ) (params : Option (List ℚ)) :
    Option (List ℚ) :=
  match params with
  | none => none
  | some p => some ((p.drop (accum_nscalars args i)).take
      (accum_nscalars args (i + 1) - accum_nscalars args i))

/-- Mirrors `_RateExpr.__init__`: for the four concrete subclasses the class attribute
`nargs` is `1`, `1`, `-1` or `2`, so the `nargs == 0` guard ("nargs need to be
set") never fires; `-1` adopts `len(args)`; otherwise a mismatch between
`len(args)` and `nargs` raises "Incorrect number of parameters". -/
def construct (v : Variant) (args : List (ℚ ⊕ RExpr))
    (hard_args : List (String × ℤ)) (ref : ℕ) : Except Err RExpr :=
  if v.nargsCls = -1 then Except.ok (RExpr.mk v args hard_args ref)
  else if (args.length : Int) ≠ v.nargsCls then Except.error Err.arity
  else Except.ok (RExpr.mk v args hard_args ref)

mutual
/-- Mirrors `_RateExpr.rebuild(params=None)`: rebuild each argument in order, then
re-run the constructor with the same `hard_args` and `ref`.  A nested node is
rebuilt with `_sub_params(i, params)`; a scalar leaf is kept when `params` is
`None`, and otherwise the source checks `len(params) != 1` on the **whole**
vector it received and takes `params[0]`. -/
def rebuild (e : RExpr) (params : Option (List ℚ)) : Except Err RExpr :=
  match e with
  | .mk v args ha r => do
      let newArgs ← rebuildArgs args args 0 params
      construct v newArgs ha r
/-- The `for i, arg in enumerate(self.args)` loop of `rebuild`: `full` is
`self.args` (for the accumulated-count slicing), `rest` the suffix from
position `i` on. -/
def rebuildArgs (full rest : List (ℚ ⊕ RExpr)) (i : ℕ)
    (params : Option (List ℚ)) : Except Err (List (ℚ ⊕ RExpr)) :=
  match rest with
  | [] => Except.ok []
  | .inr e :: more => do
      let e2 ← rebuild e (sub_params full i params)
      let tail ← rebuildArgs full more (i + 1) params
      Except.ok (.inr e2 :: tail)
  | .inl q :: more => do
      let a2 ← match params with
        | none => Except.ok (Sum.inl q : ℚ ⊕ RExpr)
        | some p =>
            if p.length ≠ 1 then Except.error Err.length
            else Except.ok (Sum.inl p.headI : ℚ ⊕ RExpr)
      let tail ← rebuildArgs full more (i + 1) params
      Except.ok (a2 :: tail)
end

mutual
/-- Mirrors `_RateExpr.get_params()`: scalar leaves in depth-first, left-to-right
order (`extend` for nested nodes, `append` for leaves). -/
def get_params : RExpr → List ℚ
  | .mk _ args _ _ => getParamsList args
/-- The `for arg in self.args` loop of `get_params`. -/
def getParamsList : List (ℚ ⊕ RExpr) → List ℚ
  | [] => []
  | .inl q :: rest => q :: getParamsList rest
  | .inr e :: rest => get_params e ++ getParamsList rest
end

/-- Python `reduce(f, xs)`: raises `TypeError` on an empty sequence (no
initial value), otherwise folds from the first element. -/
def reduce1 (f : ℚ → ℚ → ℚ) : List ℚ → Except Err ℚ
  | [] => Except.error Err.emptyReduce
  | x :: xs => Except.ok (xs.foldl f x)

/-- The list comprehension of `MassAction.eval`:
`[conc[rsys.as_substance_index(k)]**v for k, v in rsys.rxns[ri].reac.items()]`. -/
def powFactorsNat {State : Type} (rsys : RSys State) (conc : List ℚ)
    (reac : List (String × ℕ)) : Except Err (List ℚ) :=
  reac.mapM fun kc => do
    let si ← match rsys.as_substance_index kc.1 with
      | some si => Except.ok si
      | none => Except.error Err.index
    let c ← match conc.get? si with
      | some c => Except.ok c
      | none => Except.error Err.index
    Except.ok (c ^ kc.2)

/-- The list comprehension of `GeneralPow.eval`:
`[conc[rsys.as_substance_index(k)]**p for k, p in self.hard_args.items()]`. -/
def powFactorsInt {State : Type} (rsys : RSys State) (conc : List ℚ)
    (hard_args : List (String × ℤ)) : Except Err (List ℚ) :=
  hard_args.mapM fun kp => do
    let si ← match rsys.as_substance_index kp.1 with
      | some si => Except.ok si
      | none => Except.error Err.index
    let c ← match conc.get? si with
      | some c => Except.ok c
      | none => Except.error Err.index
    Except.ok (c ^ kp.2)

mutual
/-- Mirrors `eval` of the four variants.  `MassAction`: `eval_arg(0) * reduce(mul,
reactant powers)`; `GeneralPow`: `eval_arg(0) * reduce(mul, hard_args
powers)`; `Sum`: `reduce(add, [eval_arg(i) for i in range(nargs)])`;
`Quotient`: `eval_arg(0) / eval_arg(1)`. -/
def evalExpr {State : Type} (rsys : RSys State) (ri : ℕ) (conc : List ℚ) :
    RExpr → Option (List ℚ) → Except Err ℚ
  | .mk .massAction [] _ _, _ => Except.error Err.index
  | .mk .massAction (a :: rest) _ _, params => do
      let kval ← evalArgCase rsys ri conc a params (sub_params (a :: rest) 0 params)
      let rxn ← match rsys.rxns.get? ri with
        | some rxn => Except.ok rxn
        | none => Except.error Err.index
      let factors ← powFactorsNat rsys conc rxn.reac
      let prodv ← reduce1 (· * ·) factors
      Except.ok (kval * prodv)
  | .mk .generalPow [] _ _, _ => Except.error Err.index
  | .mk .generalPow (a :: rest) ha _, params => do
      let kval ← evalArgCase rsys ri conc a params (sub_params (a :: rest) 0 params)
      let factors ← powFactorsInt rsys conc ha
      let prodv ← reduce1 (· * ·) factors
      Except.ok (kval * prodv)
  | .mk .sum args _ _, params => do
      let vals ← evalArgList rsys ri conc args args 0 params
      reduce1 (· + ·) vals
  | .mk .quotient [] _ _, _ => Except.error Err.index
  | .mk .quotient [a] _ _, params => do
      let x ← evalArgCase rsys ri conc a params (sub_params [a] 0 params)
      let y ← (Except.error Err.index : Except Err ℚ)
      Except.ok (x / y)
  | .mk .quotient (a :: b :: rest) _ _, params => do
      let x ← evalArgCase rsys ri conc a params (sub_params (a :: b :: rest) 0 params)
      let y ← evalArgCase rsys ri conc b params (sub_params (a :: b :: rest) 1 params)
      Except.ok (x / y)
/-- The body of `eval_arg` once `self.args[i]` is in hand: a nested node is
evaluated with the sub-slice `subp = _sub_params(i, params)`; a scalar leaf is
returned as-is without override, and with an override the source checks
`len(params) != 1` on the **whole** vector and returns `params[0]`. -/
def evalArgCase {State : Type} (rsys : RSys State) (ri : ℕ) (conc : List ℚ)
    (a : ℚ ⊕ RExpr) (params subp : Option (List ℚ)) : Except Err ℚ :=
  match a with
  | .inl q =>
      match params with
      | none => Except.ok q
      | some p =>
          if p.length ≠ 1 then Except.error Err.length
          else Except.ok p.headI
  | .inr e => evalExpr rsys ri conc e subp
/-- The `[self.eval_arg(rsys, ri, concs, i, params) for i in
range(self.nargs)]` comprehension of `Sum.eval` (`nargs = len(self.args)`). -/
def evalArgList {State : Type} (rsys : RSys State) (ri : ℕ) (conc : List ℚ)
    (full rest : List (ℚ ⊕ RExpr)) (i : ℕ) (params : Option (List ℚ)) :
    Except Err (List ℚ) :=
  match rest with
  | [] => Except.ok []
  | a :: more => do
      let x ← evalArgCase rsys ri conc a params (sub_params full i params)
      let tail ← evalArgList rsys ri conc full more (i + 1) params
      Except.ok (x :: tail)
end

/-- Mirrors `_RateExpr.eval_arg(rsys, ri, concs, i, params=None)` as a standalone
operation on a node: look up `self.args[i]` and dispatch as `evalArgCase`. -/
def eval_arg {State : Type} (rsys : RSys State) (ri : ℕ) (conc : List ℚ)
    (e : RExpr) (i : ℕ) (params : Option (List ℚ)) : Except Err ℚ :=
  match e with
  | .mk _ args _ _ =>
    match args.get? i with
    | none => Except.error Err.index
    | some a => evalArgCase rsys ri conc a params (sub_params args i params)

mutual
/-- The shape of a tree: every scalar leaf value replaced by `0`.  Two trees
with the same skeleton have the same variants, arities, `hard_args`, `ref`s
and leaf positions everywhere. -/
def skeleton : RExpr → RExpr
  | .mk v args ha r => .mk v (skeletonArgs args) ha r
/-- Mirrors `skeleton` over an argument list. -/
def skeletonArgs : List (ℚ ⊕ RExpr) → List (ℚ ⊕ RExpr)
  | [] => []
  | .inl _ :: rest => .inl 0 :: skeletonArgs rest
  | .inr e :: rest => .inr (skeleton e) :: skeletonArgs rest
end

/-- A tree that the source's constructors could actually have produced: at
every node, either the variant is variadic or the stored arity matches the
argument count. -/
inductive WF : RExpr → Prop where
  | mk {v : Variant} {args : List (ℚ ⊕ RExpr)} {ha : List (String × ℤ)} {r : ℕ} :
      (v.nargsCls = -1 ∨ (args.length : Int) = v.nargsCls) →
      (∀ e, Sum.inr e ∈ args → WF e) →
      WF (.mk v args ha r)

/-- The worked scenario's reaction `H2O -> H+ + OH-` with rate parameter
`1e-4` (only `reac` and `param` are consumed by the code). -/
def rxnW : Reaction Unit :=
  { reac := [("H2O", 1)], param := Scal.mk "float" none (some (1/10000)) }

/-- The worked scenario's reaction system: `H2O -> H+ + OH- ; 1e-4` with
substances ordered `H2O, H+, OH-`. -/
def rsysW : RSys Unit :=
  { rxns := [rxnW],
    as_substance_index := fun k =>
      if k = "H2O" then some 0 else if k = "H+" then some 1
      else if k = "OH-" then some 2 else none }

/-- The worked scenario's concentrations `[55.4, 1e-7, 1e-7]`. -/
def concW : List ℚ := [277/5, 1/10000000, 1/10000000]

/-- A system with one reaction `A + 2 B -> ...`, substances `A, B`. -/
def rsysAB : RSys Unit :=
  { rxns := [ { reac := [("A", 1), ("B", 2)],
                param := Scal.mk "float" none (some 1) } ],
    as_substance_index := fun k =>
      if k = "A" then some 0 else if k = "B" then some 1 else none }

/-- A system whose single reaction has an empty `reac` mapping. -/
def rsysE : RSys Unit :=
  { rxns := [ { reac := [], param := Scal.mk "float" none (some 1) } ],
    as_substance_index := fun _ => none }

/-- A symbolic placeholder that is technically invocable: class name
`Symbol`, with a `__call__` implementation. -/
def symScal : Scal Unit :=
  Scal.mk "Symbol" (some fun _ => Scal.mk "float" none (some 5)) none

/-- A plain rate-parameter provider function. -/
def fnScal : Scal Unit :=
  Scal.mk "function" (some fun _ => Scal.mk "float" none (some 7)) none

/-- The tree `MassAction([2])`. -/
def twMA : RExpr := RExpr.mk .massAction [Sum.inl 2] [] 0

/- ## Theorems -/

theorem ok_bind {ε α β : Type} (x : α) (g : α → Except ε β) :
    (Except.ok x >>= g) = g x := rfl

theorem error_bind {ε α β : Type} (e : ε) (g : α → Except ε β) :
    (Except.error e >>= g : Except ε β) = Except.error e := rfl

theorem sizeOf_mem_args_lt {v : Variant} {args : List (ℚ ⊕ RExpr)}
    {ha : List (String × ℤ)} {r : ℕ} {e : RExpr} (h : Sum.inr e ∈ args) :
    sizeOf e < sizeOf (RExpr.mk v args ha r) := by
  have h1 : sizeOf (Sum.inr e : ℚ ⊕ RExpr) < sizeOf args := List.sizeOf_lt_of_mem h
  simp only [RExpr.mk.sizeOf_spec, Sum.inr.sizeOf_spec] at h1 ⊢
  omega

/-- Strong induction over rate-expression trees: to prove `P` everywhere it
is enough to prove it at a node assuming it for every nested argument. -/
theorem RExpr.strongInd (P : RExpr → Prop)
    (ih : ∀ v args ha r, (∀ e, Sum.inr e ∈ args → P e) → P (RExpr.mk v args ha r)) :
    ∀ t, P t := by
  have key : ∀ n t, sizeOf t ≤ n → P t := by
    intro n
    induction n with
    | zero =>
        intro t ht
        exfalso
        cases t with
        | mk v args ha r => simp only [RExpr.mk.sizeOf_spec] at ht; omega
    | succ n IHn =>
        intro t ht
        cases t with
        | mk v args ha r =>
            apply ih
            intro e he
            apply IHn
            have hlt := @sizeOf_mem_args_lt v args ha r e he
            omega
  exact fun t => key (sizeOf t) t le_rfl

theorem nscalarsVec_sum (args : List (ℚ ⊕ RExpr)) :
    (nscalarsVec args).sum = nscalarsList args := by
  induction args with
  | nil => simp [nscalarsVec, nscalarsList]
  | cons a rest IH =>
      cases a with
      | inl q => simp [nscalarsVec, nscalarsList] at *; omega
      | inr e => simp [nscalarsVec, nscalarsList] at *; omega

theorem getParamsList_length (args : List (ℚ ⊕ RExpr))
    (ih : ∀ e, Sum.inr e ∈ args → (get_params e).length = nscalarsOf e) :
    (getParamsList args).length = nscalarsList args := by
  induction args with
  | nil => simp [getParamsList, nscalarsList]
  | cons a rest IH =>
      have IHrest := IH (fun e he => ih e (List.mem_cons_of_mem a he))
      cases a with
      | inl q => simp [getParamsList, nscalarsList, IHrest]; omega
      | inr e =>
          have he : (get_params e).length = nscalarsOf e :=
            ih e (List.mem_cons_self _ _)
          simp [getParamsList, nscalarsList, IHrest, he]

theorem get_params_length : ∀ t : RExpr, (get_params t).length = nscalarsOf t := by
  apply RExpr.strongInd
  intro v args ha r ih
  simpa [get_params, nscalarsOf] using getParamsList_length args ih

theorem accum_list_getLast (args : List (ℚ ⊕ RExpr)) :
    (accum_list args).getLast? = some (nscalarsList args) := by
  unfold accum_list
  rw [List.range_succ, List.map_append]
  have hlen : (nscalarsVec args).length = args.length := by
    simp [nscalarsVec]
  simp only [List.map_cons, List.map_nil, List.getLast?_concat]
  rw [accum_nscalars, ← hlen, List.take_length, nscalarsVec_sum]

/-- C6: for every constructed rate-expression tree, the length of
`get_params()` equals the last entry of `accum_nscalars` (the total scalar
count derived at construction), so flattening and the prefix-sum slicing
layout agree on how many scalars the tree owns. -/
theorem c6_scalar_count_consistency (v : Variant) (args : List (ℚ ⊕ RExpr))
    (ha : List (String × ℤ)) (r : ℕ) :
    (accum_list args).getLast? = some (get_params (RExpr.mk v args ha r)).length := by
  rw [accum_list_getLast, get_params_length]
  rfl

/-- C8: constructing a node whose variant has a positive fixed arity
(`Quotient`, `nargs = 2`) raises an Arity error exactly when the number of
supplied arguments differs from that arity; a variadic node (`Sum`) always
constructs, adopting `len(args)` as its effective arity. -/
theorem c8_fixed_arity (args : List (ℚ ⊕ RExpr)) (ha : List (String × ℤ)) (r : ℕ) :
    (construct .quotient args ha r = Except.error Err.arity ↔ args.length ≠ 2) ∧
    (args.length = 2 → construct .quotient args ha r =
       Except.ok (RExpr.mk .quotient args ha r)) ∧
    (construct .sum args ha r = Except.ok (RExpr.mk .sum args ha r)) := by
  refine ⟨?_, ?_, ?_⟩
  · by_cases h : args.length = 2
    · have h2 : (args.length : Int) = 2 := by exact_mod_cast h
      simp [construct, Variant.nargsCls, h2, h]
    · have h2 : (args.length : Int) ≠ 2 := by exact_mod_cast h
      simp [construct, Variant.nargsCls, h2, h]
  · intro h
    have h2 : (args.length : Int) = 2 := by exact_mod_cast h
    simp [construct, Variant.nargsCls, h2]
  · simp [construct, Variant.nargsCls]

theorem c8_fixed_arity_witness :
    (construct .quotient [Sum.inl 1] [] 0 = Except.error Err.arity) ∧
    (construct .quotient [Sum.inl 1, Sum.inl 2] [] 0 =
       Except.ok (RExpr.mk .quotient [Sum.inl 1, Sum.inl 2] [] 0)) ∧
    (construct .quotient [Sum.inl 1, Sum.inl 2, Sum.inl 3] [] 0 =
       Except.error Err.arity) ∧
    (construct .sum [] [] 0 = Except.ok (RExpr.mk .sum [] [] 0)) :=
  ⟨(c8_fixed_arity [Sum.inl 1] [] 0).1.mpr (by decide),
   (c8_fixed_arity [Sum.inl 1, Sum.inl 2] [] 0).2.1 (by decide),
   (c8_fixed_arity [Sum.inl 1, Sum.inl 2, Sum.inl 3] [] 0).1.mpr (by decide),
   (c8_fixed_arity [] [] 0).2.2⟩

/-- C9: `_eval_k` returns `v(state)` when `v` is invocable and not a
symbolic-placeholder value, and returns `v` unchanged in every other case; in
particular a `Symbol` is returned unchanged even when it is technically
invocable. -/
theorem c9_eval_k_resolution {State : Type} (k : Scal State) (s : State) :
    (∀ f, k.call = some f → k.className ≠ "Symbol" → eval_k k s = f s) ∧
    (k.call = none → eval_k k s = k) ∧
    (k.className = "Symbol" → eval_k k s = k) := by
  obtain ⟨cn, call, n⟩ := k
  refine ⟨?_, ?_, ?_⟩
  · intro f hf hcn
    cases call with
    | none => simp [Scal.call] at hf
    | some g =>
        simp only [Scal.call, Option.some.injEq] at hf
        subst hf
        simp only [Scal.className] at hcn
        simp [eval_k, hcn]
  · intro hf
    cases call with
    | none => simp [eval_k]
    | some g => simp [Scal.call] at hf
  · intro hcn
    simp only [Scal.className] at hcn
    cases call with
    | none => simp [eval_k]
    | some g => simp [eval_k, hcn]

theorem c9_eval_k_resolution_witness :
    (eval_k fnScal () = Scal.mk "float" none (some 7)) ∧
    (eval_k symScal () = symScal) ∧
    (eval_k (Scal.mk "float" none (some 3) : Scal Unit) () =
       Scal.mk "float" none (some 3)) :=
  ⟨(c9_eval_k_resolution fnScal ()).1 _ rfl (by decide),
   (c9_eval_k_resolution symScal ()).2.2 rfl,
   (c9_eval_k_resolution (Scal.mk "float" none (some 3)) ()).2.1 rfl⟩

/-- C1 is refuted by the code: on the tree `Sum([1, 2])` (total scalar count
2) and the matching-length flat vector `[10, 20]`, `rebuild` raises the
Length error ("Incorrect length of params"), because its scalar-leaf branch
tests `len(params) != 1` against the node's whole parameter vector instead of
the leaf's length-1 sub-slice, so `T.rebuild(P).get_params()` never gets to
return `P`. -/
theorem c1_rebuild_roundtrip_failing :
    nscalarsOf (RExpr.mk .sum [Sum.inl 1, Sum.inl 2] [] 0) = 2 ∧
    rebuild (RExpr.mk .sum [Sum.inl 1, Sum.inl 2] [] 0) (some [10, 20]) =
      Except.error Err.length :=
  ⟨rfl, rfl⟩

/-- C2 is refuted by the code: for `Sum([1, 2])`, argument 0 and override
`[10, 20]`, the leaf's sub-slice `params[0:1] = [10]` has length 1 yet
`eval_arg` raises the Length error (it tests the whole vector); and for
`Sum([MassAction([1]), 2])`, argument 1 and override `[10]`, the leaf's
sub-slice `params[1:2] = []` is empty yet `eval_arg` returns `params[0] = 10`
instead of raising. -/
theorem c2_eval_arg_full_vector_check :
    eval_arg rsysE 0 [] (RExpr.mk .sum [Sum.inl 1, Sum.inl 2] [] 0) 0
      (some [10, 20]) = Except.error Err.length ∧
    eval_arg rsysE 0 [] (RExpr.mk .sum
      [Sum.inr (RExpr.mk .massAction [Sum.inl 1] [] 0), Sum.inl 2] [] 0) 1
      (some [10]) = Except.ok 10 :=
  ⟨rfl, rfl⟩

/-- C3 as stated is false at a concrete input: a Sum node with zero arguments
does not evaluate to 0; `reduce(add, [])` has no initial value, so evaluation
raises a TypeError (modelled as `emptyReduce`). -/
theorem c3_empty_sum_counterexample :
    evalExpr rsysE 0 [] (RExpr.mk .sum [] [] 0) none =
      Except.error Err.emptyReduce := rfl

/-- C3 (amended): a Sum node with zero arguments fails to evaluate, with the
empty-reduction error, for every (rsys, ri, concs, params); a Sum node with
exactly one argument evaluates equal to `eval_arg` applied to argument 0. -/
theorem c3_sum_amended {State : Type} (rsys : RSys State) (ri : ℕ) (conc : List ℚ)
    (ha : List (String × ℤ)) (r : ℕ) (a : ℚ ⊕ RExpr) (params : Option (List ℚ)) :
    evalExpr rsys ri conc (RExpr.mk .sum [] ha r) params =
      Except.error Err.emptyReduce ∧
    evalExpr rsys ri conc (RExpr.mk .sum [a] ha r) params =
      eval_arg rsys ri conc (RExpr.mk .sum [a] ha r) 0 params := by
  constructor
  · rfl
  · cases h : evalArgCase rsys ri conc a params (sub_params [a] 0 params) with
    | ok x =>
        simp [evalExpr, evalArgList, eval_arg, h, ok_bind, error_bind, reduce1]
    | error e =>
        simp [evalExpr, evalArgList, eval_arg, h, ok_bind, error_bind]

theorem sub_params_none (args : List (ℚ ⊕ RExpr)) (i : ℕ) :
    sub_params args i none = none := rfl

theorem construct_ok {v : Variant} {args : List (ℚ ⊕ RExpr)}
    {ha : List (String × ℤ)} {r : ℕ} {t' : RExpr}
    (h : construct v args ha r = Except.ok t') : t' = RExpr.mk v args ha r := by
  unfold construct at h
  split at h
  · exact (Except.ok.inj h).symm
  · split at h
    · exact absurd h (by simp)
    · exact (Except.ok.inj h).symm

theorem construct_of_arity {v : Variant} {args : List (ℚ ⊕ RExpr)}
    {ha : List (String × ℤ)} {r : ℕ}
    (h : v.nargsCls = -1 ∨ (args.length : Int) = v.nargsCls) :
    construct v args ha r = Except.ok (RExpr.mk v args ha r) := by
  rcases h with h | h
  · simp [construct, h]
  · by_cases hm : v.nargsCls = -1
    · simp [construct, hm]
    · simp [construct, hm, h]

theorem rebuildArgs_none_ok (full : List (ℚ ⊕ RExpr)) :
    ∀ (rest : List (ℚ ⊕ RExpr)) (i : ℕ),
    (∀ e, Sum.inr e ∈ rest → rebuild e none = Except.ok e) →
    rebuildArgs full rest i none = Except.ok rest := by
  intro rest
  induction rest with
  | nil => intro i _; rfl
  | cons a more IH =>
      intro i ih
      cases a with
      | inl q =>
          have htail := IH (i + 1) (fun e he => ih e (List.mem_cons_of_mem _ he))
          simp [rebuildArgs, htail, ok_bind]
      | inr e =>
          have hhead := ih e (List.mem_cons_self _ _)
          have htail := IH (i + 1) (fun e he => ih e (List.mem_cons_of_mem _ he))
          simp [rebuildArgs, sub_params_none, hhead, htail, ok_bind]

theorem rebuildArgs_none_eq (full : List (ℚ ⊕ RExpr)) :
    ∀ (rest : List (ℚ ⊕ RExpr)) (i : ℕ) (rest' : List (ℚ ⊕ RExpr)),
    (∀ e, Sum.inr e ∈ rest → ∀ t', rebuild e none = Except.ok t' → t' = e) →
    rebuildArgs full rest i none = Except.ok rest' → rest' = rest := by
  intro rest
  induction rest with
  | nil =>
      intro i rest' _ h
      simp only [rebuildArgs] at h
      exact (Except.ok.inj h).symm
  | cons a more IH =>
      intro i rest' ih h
      cases a with
      | inl q =>
          simp only [rebuildArgs, ok_bind] at h
          cases htail : rebuildArgs full more (i + 1) none with
          | error e => rw [htail] at h; exact absurd h (by simp [error_bind])
          | ok tail =>
              rw [htail, ok_bind] at h
              have := IH (i + 1) tail
                (fun e he t' ht => ih e (List.mem_cons_of_mem _ he) t' ht) htail
              subst this
              exact (Except.ok.inj h).symm
      | inr e =>
          simp only [rebuildArgs, sub_params_none] at h
          cases hhead : rebuild e none with
          | error err => rw [hhead] at h; exact absurd h (by simp [error_bind])
          | ok e2 =>
              rw [hhead, ok_bind] at h
              have he2 : e2 = e := ih e (List.mem_cons_self _ _) e2 hhead
              subst he2
              cases htail : rebuildArgs full more (i + 1) none with
              | error err => rw [htail] at h; exact absurd h (by simp [error_bind])
              | ok tail =>
                  rw [htail, ok_bind] at h
                  have := IH (i + 1) tail
                    (fun e he t' ht => ih e (List.mem_cons_of_mem _ he) t' ht) htail
                  subst this
                  exact (Except.ok.inj h).symm

theorem rebuild_none_ok : ∀ t, WF t → rebuild t none = Except.ok t := by
  apply RExpr.strongInd (P := fun t => WF t → rebuild t none = Except.ok t)
  intro v args ha r ih hwf
  cases hwf with
  | mk harity hsub =>
      have hargs : rebuildArgs args args 0 none = Except.ok args :=
        rebuildArgs_none_ok args args 0 (fun e he => ih e he (hsub e he))
      simp [rebuild, hargs, ok_bind, construct_of_arity harity]

theorem rebuild_none_eq : ∀ t t', rebuild t none = Except.ok t' → t' = t := by
  apply RExpr.strongInd (P := fun t => ∀ t', rebuild t none = Except.ok t' → t' = t)
  intro v args ha r ih t' h
  simp only [rebuild] at h
  cases hargs : rebuildArgs args args 0 none with
  | error e => rw [hargs] at h; exact absurd h (by simp [error_bind])
  | ok newArgs =>
      rw [hargs, ok_bind] at h
      have hnew : newArgs = args := rebuildArgs_none_eq args args 0 newArgs ih hargs
      subst hnew
      exact construct_ok h

/-- C5: for every constructible tree `T`, `T.rebuild(None)` succeeds and
returns `T` itself, so it evaluates to the same value as `T` for every fixed
(reactionSystem, reactionIndex, concentrations) and parameter override. -/
theorem c5_rebuild_none_preserves_eval (t : RExpr) :
    (WF t → rebuild t none = Except.ok t) ∧
    (∀ t', rebuild t none = Except.ok t' →
      ∀ (State : Type) (rsys : RSys State) (ri : ℕ) (conc : List ℚ)
        (params : Option (List ℚ)),
        evalExpr rsys ri conc t' params = evalExpr rsys ri conc t params) := by
  refine ⟨rebuild_none_ok t, ?_⟩
  intro t' h State rsys ri conc params
  rw [rebuild_none_eq t t' h]

theorem c5_rebuild_none_preserves_eval_witness :
    rebuild twMA none = Except.ok twMA ∧
    evalExpr rsysE 0 [] twMA none = evalExpr rsysE 0 [] twMA none := by
  have hwf : WF twMA := WF.mk (Or.inr (by decide)) (fun e he => by simp [twMA] at he)
  exact ⟨(c5_rebuild_none_preserves_eval twMA).1 hwf,
    (c5_rebuild_none_preserves_eval twMA).2 twMA
      ((c5_rebuild_none_preserves_eval twMA).1 hwf) Unit rsysE 0 [] none⟩

theorem nscalarsList_skeletonArgs (args : List (ℚ ⊕ RExpr))
    (ih : ∀ e, Sum.inr e ∈ args → nscalarsOf (skeleton e) = nscalarsOf e) :
    nscalarsList (skeletonArgs args) = nscalarsList args := by
  induction args with
  | nil => rfl
  | cons a rest IH =>
      have IHrest := IH (fun e he => ih e (List.mem_cons_of_mem a he))
      cases a with
      | inl q => simp [skeletonArgs, nscalarsList, IHrest]
      | inr e =>
          have he := ih e (List.mem_cons_self _ _)
          simp [skeletonArgs, nscalarsList, IHrest, he]

theorem nscalarsOf_skeleton : ∀ t, nscalarsOf (skeleton t) = nscalarsOf t := by
  apply RExpr.strongInd
  intro v args ha r ih
  simp only [skeleton, nscalarsOf]
  exact nscalarsList_skeletonArgs args ih

theorem nscalarsVec_skeletonArgs (args : List (ℚ ⊕ RExpr)) :
    nscalarsVec (skeletonArgs args) = nscalarsVec args := by
  induction args with
  | nil => rfl
  | cons a rest IH =>
      cases a with
      | inl q => simp [skeletonArgs, nscalarsVec] at *; exact IH
      | inr e =>
          simp [skeletonArgs, nscalarsVec] at *
          exact ⟨nscalarsOf_skeleton e, IH⟩

theorem rebuildArgs_skeleton (full : List (ℚ ⊕ RExpr)) :
    ∀ (rest : List (ℚ ⊕ RExpr)) (i : ℕ) (params : Option (List ℚ))
      (rest' : List (ℚ ⊕ RExpr)),
    (∀ e, Sum.inr e ∈ rest → ∀ p e', rebuild e p = Except.ok e' →
       skeleton e' = skeleton e) →
    rebuildArgs full rest i params = Except.ok rest' →
    skeletonArgs rest' = skeletonArgs rest := by
  intro rest
  induction rest with
  | nil =>
      intro i params rest' _ h
      simp only [rebuildArgs] at h
      rw [← Except.ok.inj h]
  | cons a more IH =>
      intro i params rest' ih h
      cases a with
      | inl q =>
          simp only [rebuildArgs] at h
          cases params with
          | none =>
              dsimp only at h
              rw [ok_bind] at h
              cases htail : rebuildArgs full more (i + 1) none with
              | error e => rw [htail] at h; exact absurd h (by simp [error_bind])
              | ok tail =>
                  rw [htail, ok_bind] at h
                  rw [← Except.ok.inj h]
                  have := IH (i + 1) none tail
                    (fun e he p e' ht => ih e (List.mem_cons_of_mem _ he) p e' ht) htail
                  simp [skeletonArgs, this]
          | some p =>
              dsimp only at h
              by_cases hl : p.length ≠ 1
              · rw [if_pos hl, error_bind] at h
                exact absurd h (by simp)
              · rw [if_neg hl, ok_bind] at h
                cases htail : rebuildArgs full more (i + 1) (some p) with
                | error e => rw [htail] at h; exact absurd h (by simp [error_bind])
                | ok tail =>
                    rw [htail, ok_bind] at h
                    rw [← Except.ok.inj h]
                    have := IH (i + 1) (some p) tail
                      (fun e he pp e' ht => ih e (List.mem_cons_of_mem _ he) pp e' ht) htail
                    simp [skeletonArgs, this]
      | inr e =>
          simp only [rebuildArgs] at h
          cases hhead : rebuild e (sub_params full i params) with
          | error err => rw [hhead] at h; exact absurd h (by simp [error_bind])
          | ok e2 =>
              rw [hhead, ok_bind] at h
              cases htail : rebuildArgs full more (i + 1) params with
              | error err => rw [htail] at h; exact absurd h (by simp [error_bind])
              | ok tail =>
                  rw [htail, ok_bind] at h
                  rw [← Except.ok.inj h]
                  have hsk : skeleton e2 = skeleton e :=
                    ih e (List.mem_cons_self _ _) (sub_params full i params) e2 hhead
                  have htl := IH (i + 1) params tail
                    (fun e he pp e' ht => ih e (List.mem_cons_of_mem _ he) pp e' ht) htail
                  simp [skeletonArgs, hsk, htl]

theorem rebuild_skeleton : ∀ t, ∀ (p : Option (List ℚ)) t',
    rebuild t p = Except.ok t' → skeleton t' = skeleton t := by
  apply RExpr.strongInd
    (P := fun t => ∀ p t', rebuild t p = Except.ok t' → skeleton t' = skeleton t)
  intro v args ha r ih p t' h
  simp only [rebuild] at h
  cases hargs : rebuildArgs args args 0 p with
  | error e => rw [hargs] at h; exact absurd h (by simp [error_bind])
  | ok newArgs =>
      rw [hargs, ok_bind] at h
      have ht' := construct_ok h
      subst ht'
      have := rebuildArgs_skeleton args args 0 p newArgs ih hargs
      simp [skeleton, this]

/-- C7: when `N.rebuild(P)` returns a node, that node has the same concrete
variant, the same `hard_args`, the same `ref`, the same tree shape
(`skeleton`) and the same per-argument `nscalars` layout as `N`; only scalar
leaf values may differ.  (The embedding's `rebuild` is a pure function, so
the original node is unchanged by construction.) -/
theorem c7_rebuild_frame (t : RExpr) (p : Option (List ℚ)) (t' : RExpr)
    (h : rebuild t p = Except.ok t') :
    t'.variant = t.variant ∧ t'.hard_args = t.hard_args ∧ t'.ref = t.ref ∧
    skeleton t' = skeleton t ∧ nscalarsVec t'.args = nscalarsVec t.args := by
  have hsk := rebuild_skeleton t p t' h
  obtain ⟨v, args, ha, r⟩ := t
  obtain ⟨v', args', ha', r'⟩ := t'
  simp only [skeleton, RExpr.mk.injEq] at hsk
  obtain ⟨hv, hargs, hha, hr⟩ := hsk
  refine ⟨hv, hha, hr, ?_, ?_⟩
  · simp [skeleton, hv, hargs, hha, hr]
  · simp only [RExpr.args]
    calc nscalarsVec args' = nscalarsVec (skeletonArgs args') :=
          (nscalarsVec_skeletonArgs args').symm
      _ = nscalarsVec (skeletonArgs args) := by rw [hargs]
      _ = nscalarsVec args := nscalarsVec_skeletonArgs args

theorem c7_rebuild_frame_witness :
    twMA.variant = twMA.variant ∧
    (RExpr.mk .massAction [Sum.inl 5] [] 0).hard_args = twMA.hard_args ∧
    (RExpr.mk .massAction [Sum.inl 5] [] 0).ref = twMA.ref ∧
    skeleton (RExpr.mk .massAction [Sum.inl 5] [] 0) = skeleton twMA ∧
    nscalarsVec (RExpr.mk .massAction [Sum.inl 5] [] 0).args = nscalarsVec twMA.args := by
  have := c7_rebuild_frame twMA (some [5]) (RExpr.mk .massAction [Sum.inl 5] [] 0) rfl
  exact ⟨rfl, this.2.1, this.2.2.1, this.2.2.2.1, this.2.2.2.2⟩

theorem powFactorsNat_nil {State : Type} (rsys : RSys State) (conc : List ℚ) :
    powFactorsNat rsys conc [] = Except.ok [] := rfl

theorem powFactorsInt_nil {State : Type} (rsys : RSys State) (conc : List ℚ) :
    powFactorsInt rsys conc [] = Except.ok [] := rfl

theorem lma_loop_ok {State : Type} (conc : List ℚ) (rsys : RSys State) :
    ∀ (reac : List (String × ℕ)) (acc : ℚ),
    (∀ kc ∈ reac, ∃ si, rsys.as_substance_index kc.1 = some si ∧
       si < conc.length) →
    lma_loop conc rsys reac acc =
      Except.ok (acc * (reac.map fun kc =>
        conc.getD ((rsys.as_substance_index kc.1).getD 0) 0 ^ kc.2).prod) := by
  intro reac
  induction reac with
  | nil => intro acc _; simp [lma_loop]
  | cons kc rest IH =>
      intro acc hok
      obtain ⟨si, hsi, hlt⟩ := hok kc (List.mem_cons_self _ _)
      have hc : conc.get? si = some (conc.getD si 0) := by
        rw [List.get?_eq_getElem?, List.getElem?_eq_getElem hlt]
        exact congrArg some (List.getD_eq_getElem conc 0 hlt).symm
      have IHrest := IH (acc * conc.getD si 0 ^ kc.2)
        (fun kc2 h2 => hok kc2 (List.mem_cons_of_mem _ h2))
      simp only [lma_loop, hsi, hc, ok_bind]
      rw [IHrest]
      simp only [List.map_cons, List.prod_cons, hsi, Option.getD_some]
      rw [mul_assoc]

theorem mass_action_product_ok {State : Type} (conc : List ℚ) (rsys : RSys State)
    (reac : List (String × ℕ))
    (h : ∀ kc ∈ reac, ∃ si, rsys.as_substance_index kc.1 = some si ∧
       si < conc.length) :
    mass_action_product conc rsys reac =
      Except.ok ((reac.map fun kc =>
        conc.getD ((rsys.as_substance_index kc.1).getD 0) 0 ^ kc.2).prod) := by
  rw [mass_action_product, lma_loop_ok conc rsys reac 1 h, one_mul]

theorem law_go_get {State : Type} (conc : List ℚ) (rsys : RSys State)
    (params : Option (List (Scal State))) (state : State) :
    ∀ (rxns : List (Reaction State)) (i0 i : ℕ) (rxn : Reaction State),
    rxns.get? i = some rxn →
    (law_go conc rsys params state i0 rxns).get? i =
      some (law_yield conc rsys params state (i0 + i) rxn) := by
  intro rxns
  induction rxns with
  | nil => intro i0 i rxn h; simp at h
  | cons rx rest IH =>
      intro i0 i rxn h
      cases i with
      | zero =>
          simp only [List.get?_cons_zero, Option.some.injEq] at h
          subst h
          simp [law_go]
      | succ n =>
          simp only [List.get?_cons_succ] at h
          have := IH (i0 + 1) n rxn h
          simp only [law_go, List.get?_cons_succ]
          rw [this]
          congr 2
          omega

theorem law_go_length {State : Type} (conc : List ℚ) (rsys : RSys State)
    (params : Option (List (Scal State))) (state : State) :
    ∀ (rxns : List (Reaction State)) (i0 : ℕ),
    (law_go conc rsys params state i0 rxns).length = rxns.length := by
  intro rxns
  induction rxns with
  | nil => intro i0; rfl
  | cons rx rest IH => intro i0; simp [law_go, IH (i0 + 1)]

theorem law_yield_noparams {State : Type} (conc : List ℚ) (rsys : RSys State)
    (state : State) (i : ℕ) (rxn : Reaction State) (rate q : ℚ)
    (hr : mass_action_product conc rsys rxn.reac = Except.ok rate)
    (hq : (eval_k rxn.param state).num = some q) :
    law_yield conc rsys none state i rxn = Except.ok (rate * q) := by
  simp [law_yield, hr, ok_bind, hq]

theorem law_yield_params {State : Type} (conc : List ℚ) (rsys : RSys State)
    (state : State) (ps : List (Scal State)) (i : ℕ) (rxn : Reaction State)
    (p : Scal State) (rate q : ℚ)
    (hp : ps.get? i = some p)
    (hr : mass_action_product conc rsys rxn.reac = Except.ok rate)
    (hq : (eval_k p state).num = some q) :
    law_yield conc rsys (some ps) state i rxn = Except.ok (rate * q) := by
  rw [List.get?_eq_getElem?] at hp
  simp [law_yield, hr, ok_bind, hp, hq]

/-- C4: for every reaction system and concentration vector, each yield of
`law_of_mass_action_rates` is the product over the reaction's `reac` entries
of `conc[index(key)] ** coeff` (empty product = 1), multiplied by the
resolved reaction parameter when `params` is absent, or by the resolved
`params[i]` alone when supplied (the override fully replaces the reaction's
own parameter); and in the worked scenario `H2O -> H+ + OH-` with parameter
`1e-4` and concentrations `[55.4, 1e-7, 1e-7]`, the first yielded rate is
`0.00554`. -/
theorem c4_law_of_mass_action :
    (∀ (State : Type) (conc : List ℚ) (rsys : RSys State)
       (reac : List (String × ℕ)),
       (∀ kc ∈ reac, ∃ si, rsys.as_substance_index kc.1 = some si ∧
          si < conc.length) →
       mass_action_product conc rsys reac =
         Except.ok ((reac.map fun kc =>
           conc.getD ((rsys.as_substance_index kc.1).getD 0) 0 ^ kc.2).prod)) ∧
    (∀ (State : Type) (conc : List ℚ) (rsys : RSys State),
       mass_action_product conc rsys [] = Except.ok 1) ∧
    (∀ (State : Type) (conc : List ℚ) (rsys : RSys State) (state : State)
       (i : ℕ) (rxn : Reaction State) (rate q : ℚ),
       rsys.rxns.get? i = some rxn →
       mass_action_product conc rsys rxn.reac = Except.ok rate →
       (eval_k rxn.param state).num = some q →
       (law_of_mass_action_rates conc rsys none state).get? i =
         some (Except.ok (rate * q))) ∧
    (∀ (State : Type) (conc : List ℚ) (rsys : RSys State) (state : State)
       (ps : List (Scal State)) (i : ℕ) (rxn : Reaction State) (p : Scal State)
       (rate q : ℚ),
       rsys.rxns.get? i = some rxn →
       ps.get? i = some p →
       mass_action_product conc rsys rxn.reac = Except.ok rate →
       (eval_k p state).num = some q →
       (law_of_mass_action_rates conc rsys (some ps) state).get? i =
         some (Except.ok (rate * q))) ∧
    law_of_mass_action_rates concW rsysW none () = [Except.ok (277/50000)] ∧
    (∀ (State : Type) (conc : List ℚ) (rsys : RSys State)
       (params : Option (List (Scal State))) (state : State),
       (law_of_mass_action_rates conc rsys params state).length =
         rsys.rxns.length) := by
  refine ⟨?_, ?_, ?_, ?_, ?_, ?_⟩
  · intro State conc rsys reac h
    exact mass_action_product_ok conc rsys reac h
  · intro State conc rsys
    rfl
  · intro State conc rsys state i rxn rate q hi hr hq
    rw [law_of_mass_action_rates, law_go_get conc rsys none state rsys.rxns 0 i rxn hi,
      Nat.zero_add, law_yield_noparams conc rsys state i rxn rate q hr hq]
  · intro State conc rsys state ps i rxn p rate q hi hp hr hq
    rw [law_of_mass_action_rates, law_go_get conc rsys (some ps) state rsys.rxns 0 i rxn hi,
      Nat.zero_add, law_yield_params conc rsys state ps i rxn p rate q hp hr hq]
  · show law_go concW rsysW none () 0 [rxnW] = [Except.ok (277/50000)]
    rw [law_go, law_go]
    rw [show law_yield concW rsysW none () 0 rxnW = Except.ok (277/50000) from ?_]
    simp only [law_yield, mass_action_product, lma_loop]
    norm_num [rsysW, rxnW, concW, eval_k, Scal.num, ok_bind]
  · intro State conc rsys params state
    exact law_go_length conc rsys params state rsys.rxns 0

theorem c4_law_of_mass_action_witness :
    mass_action_product concW rsysW [("H2O", 1)] =
      Except.ok (([("H2O", 1)].map fun kc : String × ℕ =>
        concW.getD ((rsysW.as_substance_index kc.1).getD 0) 0 ^ kc.2).prod) ∧
    (law_of_mass_action_rates concW rsysW none ()).get? 0 =
      some (Except.ok (277/5 * (1/10000))) ∧
    (law_of_mass_action_rates concW rsysW
        (some [Scal.mk "float" none (some 2)]) ()).get? 0 =
      some (Except.ok (277/5 * 2)) := by
  refine ⟨c4_law_of_mass_action.1 Unit concW rsysW [("H2O", 1)] ?_,
    c4_law_of_mass_action.2.2.1 Unit concW rsysW () 0 rxnW (277/5) (1/10000)
      rfl ?_ rfl,
    c4_law_of_mass_action.2.2.2.1 Unit concW rsysW ()
      [Scal.mk "float" none (some 2)] 0 rxnW (Scal.mk "float" none (some 2))
      (277/5) 2 rfl rfl ?_ rfl⟩
  · intro kc hkc
    simp only [List.mem_singleton] at hkc
    subst hkc
    exact ⟨0, by decide, by decide⟩
  · simp only [rxnW, mass_action_product, lma_loop]
    norm_num [rsysW, concW, ok_bind]
  · simp only [rxnW, mass_action_product, lma_loop]
    norm_num [rsysW, concW, ok_bind]

/-- C10: evaluating a `MassAction` node against a reaction whose `reac`
mapping is empty, or a `GeneralPow` node whose `hard_args` mapping is empty,
raises an error (the `reduce(mul, [...])` over zero factors has no initial
value) rather than treating the empty product as 1 — unlike the standalone
generator, which starts its product at 1 and so yields `1 * param` for an
empty `reac`. -/
theorem c10_empty_power_mapping :
    (∀ (State : Type) (rsys : RSys State) (ri : ℕ) (conc : List ℚ)
       (args : List (ℚ ⊕ RExpr)) (ha : List (String × ℤ)) (r : ℕ)
       (params : Option (List ℚ)) (rxn : Reaction State),
       rsys.rxns.get? ri = some rxn → rxn.reac = [] →
       ∃ err, evalExpr rsys ri conc (RExpr.mk .massAction args ha r) params =
         Except.error err) ∧
    (∀ (State : Type) (rsys : RSys State) (ri : ℕ) (conc : List ℚ)
       (args : List (ℚ ⊕ RExpr)) (r : ℕ) (params : Option (List ℚ)),
       ∃ err, evalExpr rsys ri conc (RExpr.mk .generalPow args [] r) params =
         Except.error err) ∧
    (∀ (State : Type) (conc : List ℚ) (rsys : RSys State),
       mass_action_product conc rsys [] = Except.ok 1) := by
  refine ⟨?_, ?_, ?_⟩
  · intro State rsys ri conc args ha r params rxn hri hreac
    rw [List.get?_eq_getElem?] at hri
    cases args with
    | nil => exact ⟨Err.index, rfl⟩
    | cons a rest =>
        cases hcase : evalArgCase rsys ri conc a params
            (sub_params (a :: rest) 0 params) with
        | error e =>
            exact ⟨e, by simp [evalExpr, hcase, error_bind]⟩
        | ok kv =>
            refine ⟨Err.emptyReduce, ?_⟩
            simp [evalExpr, hcase, ok_bind, hri, hreac, powFactorsNat_nil,
              reduce1, error_bind]
  · intro State rsys ri conc args r params
    cases args with
    | nil => exact ⟨Err.index, rfl⟩
    | cons a rest =>
        cases hcase : evalArgCase rsys ri conc a params
            (sub_params (a :: rest) 0 params) with
        | error e =>
            exact ⟨e, by simp [evalExpr, hcase, error_bind]⟩
        | ok kv =>
            refine ⟨Err.emptyReduce, ?_⟩
            simp [evalExpr, hcase, ok_bind, powFactorsInt_nil, reduce1,
              error_bind]
  · intro State conc rsys
    rfl

theorem c10_empty_power_mapping_witness :
    (∃ err, evalExpr rsysE 0 [] (RExpr.mk .massAction [Sum.inl 2] [] 0) none =
       Except.error err) ∧
    (∃ err, evalExpr rsysE 0 [] (RExpr.mk .generalPow [Sum.inl 2] [] 0) none =
       Except.error err) ∧
    mass_action_product [] rsysE [] = Except.ok 1 :=
  ⟨c10_empty_power_mapping.1 Unit rsysE 0 [] [Sum.inl 2] [] 0 none
     { reac := [], param := Scal.mk "float" none (some 1) } rfl rfl,
   c10_empty_power_mapping.2.1 Unit rsysE 0 [] [Sum.inl 2] 0 none,
   c10_empty_power_mapping.2.2 Unit [] rsysE⟩

end Chempy
